import Mathlib

/-!
Shallow embedding of the HEPunion union file system core (fs/hepunion) and
proofs about its specification.  Paths are lists of characters (C strings
without their terminating NUL); errno codes are integers, returned negated as
in the kernel; branch I/O primitives (kern_path existence probes, traversal
permission, vfs_read/vfs_write, attribute setting) are oracle functions
supplied through small structures, exactly where the C code calls into the
VFS.  Every definition follows the corresponding C function of the source
tree; the comments name the file and function embedded.
-/

namespace Hepunion

/-- Maximum path length, linux PATH_MAX. -/
def PATH_MAX : Nat := 4096

/-- Buffer size used by the copy-up streaming loop (hepunion.h, MAXSIZE). -/
def MAXSIZE : Nat := 4096

/-- errno value ENOENT. -/
def ENOENT : Int := 2

/-- errno value ENOMEM. -/
def ENOMEM : Int := 12

/-- errno value EACCES. -/
def EACCES : Int := 13

/-- errno value EEXIST. -/
def EEXIST : Int := 17

/-- errno value EINVAL. -/
def EINVAL : Int := 22

/-- errno value ENAMETOOLONG. -/
def ENAMETOOLONG : Int := 36

/-- errno value ENOTEMPTY. -/
def ENOTEMPTY : Int := 39

/-- Outcome of find_file: the entry was found on the RO branch (hepunion.h,
enum _types). -/
def READ_ONLY : Int := 0

/-- Outcome of find_file: the entry was found on the RW branch. -/
def READ_WRITE : Int := 1

/-- Outcome of find_file: found on RO and a copyup has been created. -/
def READ_WRITE_COPYUP : Int := 2

/-- find_file flag CREATE_COPYUP (hepunion.h). -/
def CREATE_COPYUP : Nat := 1

/-- find_file flag MUST_READ_WRITE (hepunion.h). -/
def MUST_READ_WRITE : Nat := 2

/-- find_file flag MUST_READ_ONLY (hepunion.h). -/
def MUST_READ_ONLY : Nat := 4

/-- find_file flag IGNORE_WHITEOUT (hepunion.h). -/
def IGNORE_WHITEOUT : Nat := 8

/-- Permission bit MAY_WRITE passed to can_access. -/
def MAY_WRITE : Int := 2

/-- is_flag_set macro of hepunion.h: all bits of f are set in s. -/
def is_flag_set (s f : Nat) : Prop := s &&& f = f

instance (s f : Nat) : Decidable (is_flag_set s f) := by
  unfold is_flag_set; infer_instance

/-- Name test for a metadata file (hepunion.h, is_me macro): length above
four and the first four characters are ".me.". -/
def is_me : List Char → Bool
  | a :: b :: c :: d :: rest =>
    a = '.' && b = 'm' && c = 'e' && d = '.' && !rest.isEmpty
  | _ => false

/-- Name test for a whiteout file (hepunion.h, is_whiteout macro): length
above four and the first four characters are ".wh.". -/
def is_whiteout : List Char → Bool
  | a :: b :: c :: d :: rest =>
    a = '.' && b = 'w' && c = 'h' && d = '.' && !rest.isEmpty
  | _ => false

/-- Name test for the "." and ".." entries (hepunion.h, is_special macro). -/
def is_special (n : List Char) : Bool :=
  n = ['.'] || n = ['.', '.']

/-- Result of strrchr(path, '/'): splits a path at its LAST slash into the
directory part (slash included) and the base name (slash excluded); none when
the path holds no slash.  The C code works with the pointer to the last
slash; dir.length - 1 is the index that pointer denotes. -/
def splitLastSlash : List Char → Option (List Char × List Char)
  | [] => none
  | c :: rest =>
    match splitLastSlash rest with
    | some (d, b) => some (c :: d, b)
    | none => if c = '/' then some (['/'], rest) else none

/-- Kind selector of path_to_special (hepunion.h, enum _specials). -/
inductive SpecialKind where
  | me : SpecialKind
  | wh : SpecialKind
deriving DecidableEq, Repr

/-- Mount context: the two branch roots (hepunion_sb_info, fields
read_write_branch / read_only_branch; the stored lengths rw_len / ro_len are
the list lengths here). -/
structure HepunionCtx where
  read_write_branch : List Char
  read_only_branch : List Char

/-- path_to_special of helpers.c: builds the RW-branch path of the whiteout
or metadata file twin of a relative path, inserting ".wh." or ".me." before
the base name.  EINVAL when the path has no slash, ENAMETOOLONG when the
composite exceeds PATH_MAX (both length guards of the C code are kept). -/
def path_to_special (ctx : HepunionCtx) (ty : SpecialKind) (path : List Char) :
    Except Int (List Char) :=
  match splitLastSlash path with
  | none => .error (-EINVAL)
  | some (dir, base) =>
    if ctx.read_write_branch.length + path.length + 5 > PATH_MAX then
      .error (-ENAMETOOLONG)
    else if ctx.read_write_branch.length + (dir.length - 1) + 5 > PATH_MAX then
      .error (-ENAMETOOLONG)
    else
      let special : List Char := match ty with
        | .me => ['.', 'm', 'e', '.']
        | .wh => ['.', 'w', 'h', '.']
      .ok (ctx.read_write_branch ++ dir ++ special ++ base)

/-- Branch I/O oracle used by the resolver: check_exist is the kern_path
probe of helpers.c (0 when the branch path exists, a negative errno
otherwise); can_traverse is the directory-walk permission check of
helpers.c applied to the relative path; create_copyup abstracts the copy-up
engine invoked by find_file (arguments: relative path, full RO path). -/
structure FsOps where
  check_exist : List Char → Int
  can_traverse : List Char → Int
  create_copyup : List Char → List Char → Int

/-- find_whiteout of wh.c: composes path_to_special with the existence
probe; 0 means the whiteout exists. -/
def find_whiteout (ops : FsOps) (ctx : HepunionCtx) (path : List Char) : Int :=
  match path_to_special ctx .wh path with
  | .error e => e
  | .ok wh_path => ops.check_exist wh_path

/-- Portion of find_file (helpers.c) that runs after the RW attempt: the
CREATE_COPYUP branch and the plain RO branch, both guarded by the whiteout
check unless IGNORE_WHITEOUT is set. -/
def find_file_ro (ops : FsOps) (ctx : HepunionCtx) (path : List Char)
    (flags : Nat) : Int :=
  if is_flag_set flags CREATE_COPYUP then
    if (ctx.read_only_branch ++ path).length > PATH_MAX then -ENAMETOOLONG
    else
      let e := ops.check_exist (ctx.read_only_branch ++ path)
      if e < 0 then e
      else if ¬ is_flag_set flags IGNORE_WHITEOUT ∧
          find_whiteout ops ctx path = 0 then -ENOENT
      else
        let t := ops.can_traverse path
        if t < 0 then t
        else
          let c := ops.create_copyup path (ctx.read_only_branch ++ path)
          if c = 0 then READ_WRITE_COPYUP else c
  else
    if (ctx.read_only_branch ++ path).length > PATH_MAX then -ENAMETOOLONG
    else
      let e := ops.check_exist (ctx.read_only_branch ++ path)
      if e < 0 then e
      else if ¬ is_flag_set flags IGNORE_WHITEOUT ∧
          find_whiteout ops ctx path = 0 then -ENOENT
      else
        let t := ops.can_traverse path
        if t < 0 then t
        else READ_ONLY

/-- find_file of helpers.c: unless MUST_READ_ONLY is set the RW branch is
probed first (its path length guarded against PATH_MAX); on an RW hit the
parent chain is traversal-checked and READ_WRITE is returned without ever
touching the RO branch; a MUST_READ_WRITE miss fails immediately; otherwise
the RO part runs (find_file_ro). -/
def find_file (ops : FsOps) (ctx : HepunionCtx) (path : List Char)
    (flags : Nat) : Int :=
  if ¬ is_flag_set flags MUST_READ_ONLY then
    if (ctx.read_write_branch ++ path).length > PATH_MAX then -ENAMETOOLONG
    else
      let e := ops.check_exist (ctx.read_write_branch ++ path)
      if e < 0 then
        if is_flag_set flags MUST_READ_WRITE then e
        else find_file_ro ops ctx path flags
      else
        let t := ops.can_traverse path
        if t < 0 then t
        else READ_WRITE
  else find_file_ro ops ctx path flags

/-! Inode number hash (fs/hepunion/hash.c, murmur_hash_64a; hepunion.h,
HEPUNION_SEED and the name_to_ino macro).  Machine integers are naturals
reduced modulo 2^64 after every multiplication, as the uint64_t arithmetic
of the C overflows; the key is read as little-endian 64-bit words, the way
the x86 load of the C does. -/

/-- Modulus of 64-bit arithmetic. -/
def M64 : Nat := 2 ^ 64

/-- Multiplier constant m of MurmurHash2-64A. -/
def MURMUR_M : Nat := 0xc6a4a7935bd1e995

/-- Shift constant r of MurmurHash2-64A. -/
def MURMUR_R : Nat := 47

/-- Seed key for the inode numbers (hepunion.h, HEPUNION_SEED). -/
def HEPUNION_SEED : Nat := 0x9F5109F5109F510B

/-- Little-endian value of a byte list: byte 0 is least significant, the way
the loads of murmur_hash_64a read the key. -/
def le64 (bs : List Nat) : Nat :=
  bs.foldr (fun b acc => b + 256 * acc) 0

/-- Full 8-byte words of the key, in order (the while loop of
murmur_hash_64a consumes len / 8 words). -/
def toWords : List Nat → List (List Nat)
  | b0 :: b1 :: b2 :: b3 :: b4 :: b5 :: b6 :: b7 :: rest =>
    [b0, b1, b2, b3, b4, b5, b6, b7] :: toWords rest
  | _ => []

/-- Remaining len mod 8 bytes of the key after the word loop. -/
def tailBytes : List Nat → List Nat
  | _ :: _ :: _ :: _ :: _ :: _ :: _ :: _ :: rest => tailBytes rest
  | t => t

/-- Body of the word loop of murmur_hash_64a: mixes one 64-bit word into the
state. -/
def murmurRound (h k : Nat) : Nat :=
  let k1 := (k * MURMUR_M) % M64
  let k2 := k1 ^^^ (k1 >>> MURMUR_R)
  let k3 := (k2 * MURMUR_M) % M64
  ((h ^^^ k3) * MURMUR_M) % M64

/-- Tail switch of murmur_hash_64a: each case falls through to the next, so
a tail of j bytes xors bytes j-1 .. 0 at their byte positions and then
multiplies by m; an empty tail leaves the state untouched. -/
def murmurTail (h : Nat) (t : List Nat) : Nat :=
  if t.length = 0 then h
  else
    let h1 := if 7 ≤ t.length then h ^^^ ((t.getD 6 0) <<< 48) else h
    let h2 := if 6 ≤ t.length then h1 ^^^ ((t.getD 5 0) <<< 40) else h1
    let h3 := if 5 ≤ t.length then h2 ^^^ ((t.getD 4 0) <<< 32) else h2
    let h4 := if 4 ≤ t.length then h3 ^^^ ((t.getD 3 0) <<< 24) else h3
    let h5 := if 3 ≤ t.length then h4 ^^^ ((t.getD 2 0) <<< 16) else h4
    let h6 := if 2 ≤ t.length then h5 ^^^ ((t.getD 1 0) <<< 8) else h5
    ((h6 ^^^ (t.getD 0 0)) * MURMUR_M) % M64

/-- murmur_hash_64a of hash.c: seed mixed with len * m, the word loop over
len / 8 little-endian words, the tail switch over len mod 8 bytes, then the
final avalanche h ^= h >> r; h *= m; h ^= h >> r. -/
def murmur_hash_64a (data : List Nat) (len : Nat) (seed : Nat) : Nat :=
  let key := data.take len
  let h0 := seed ^^^ ((len * MURMUR_M) % M64)
  let h1 := (toWords key).foldl (fun h w => murmurRound h (le64 w)) h0
  let h2 := murmurTail h1 (tailBytes key)
  let h3 := h2 ^^^ (h2 >>> MURMUR_R)
  let h4 := (h3 * MURMUR_M) % M64
  h4 ^^^ (h4 >>> MURMUR_R)

/-- Byte value of one character of a C path string (chars are single bytes
in the C; the reduction mod 256 mirrors the unsigned char reads). -/
def charByte (c : Char) : Nat := c.toNat % 256

/-- Byte string of a path. -/
def pathBytes (p : List Char) : List Nat := p.map charByte

/-- name_to_ino macro of hepunion.h: the MurmurHash2-64A of the bytes of the
relative path, with length strlen(path) and seed HEPUNION_SEED. -/
def name_to_ino (p : List Char) : Nat :=
  murmur_hash_64a (pathBytes p) p.length HEPUNION_SEED

/-- Inode number installed by hepunion_lookup (inode.c, read_inode context:
ino = name_to_ino(path), then iget_locked loads the inode under that
number); the same expression fills i_ino in hepunion_create and
hepunion_mkdir. -/
def hepunion_lookup_ino (p : List Char) : Nat := name_to_ino p

/-! Directory iteration union (inode.c: read_rw_branch, read_ro_branch,
hepunion_readdir).  The opendir context stores the full RW and RO paths of
the directory; subtracting the branch prefix lengths leaves the relative
directory path relP, and each entry's inode number is computed on
relP ++ name.  Entry lists model the sequences vfs_readdir feeds to the
callbacks; the accumulated lists model the files and whiteouts list_heads
(list_add prepends). -/

/-- Accumulator of the opendir context: the recorded whiteout bare names and
the recorded visible entries with their inode numbers. -/
structure DirLists where
  whiteouts : List (List Char)
  files : List (List Char × Nat)

/-- read_rw_branch of inode.c, one callback invocation: metadata names are
skipped; whiteout names have their ".wh." stripped and are recorded on the
whiteouts list when an RO directory exists; any other name is recorded as a
visible entry with inode number name_to_ino(relP ++ name), after the
PATH_MAX guard on the composed path. -/
def read_rw_branch (relP : List Char) (hasRo : Bool) (st : DirLists)
    (name : List Char) : Except Int DirLists :=
  if is_me name then .ok st
  else if is_whiteout name then
    if hasRo then
      .ok { st with whiteouts := name.drop 4 :: st.whiteouts }
    else .ok st
  else
    if relP.length + name.length + 1 > PATH_MAX then .error (-ENAMETOOLONG)
    else .ok { st with
      files := (name, name_to_ino (relP ++ name)) :: st.files }

/-- read_ro_branch of inode.c, one callback invocation: a name equal to a
recorded whiteout bare name is skipped, a name equal to an already recorded
entry is skipped (RW masks RO), any other is recorded with inode number
name_to_ino(relP ++ name). -/
def read_ro_branch (relP : List Char) (st : DirLists) (name : List Char) :
    Except Int DirLists :=
  if st.whiteouts.any (fun w => w = name) then .ok st
  else if st.files.any (fun f => f.1 = name) then .ok st
  else
    if relP.length + name.length + 1 > PATH_MAX then .error (-ENAMETOOLONG)
    else .ok { st with
      files := (name, name_to_ino (relP ++ name)) :: st.files }

/-- vfs_readdir feeding a state-passing callback with every entry of a
directory, stopping at the first error, as the branch enumeration loops of
hepunion_readdir do. -/
def readdirFold (f : DirLists → List Char → Except Int DirLists)
    (st : DirLists) : List (List Char) → Except Int DirLists
  | [] => .ok st
  | n :: rest =>
    match f st n with
    | .error e => .error e
    | .ok st2 => readdirFold f st2 rest

/-- List-building phase of hepunion_readdir (inode.c): enumerate the RW
directory when one exists, then the RO directory when one exists, then
discard the whiteouts list; the surviving files list is what positional
reads serve.  none stands for a NULL branch directory (ctx length zero). -/
def hepunion_readdir_list (relP : List Char)
    (rwEntries roEntries : Option (List (List Char))) :
    Except Int (List (List Char × Nat)) :=
  let st0 : DirLists := ⟨[], []⟩
  let afterRw :=
    match rwEntries with
    | none => Except.ok st0
    | some rw => readdirFold (read_rw_branch relP roEntries.isSome) st0 rw
  match afterRw with
  | .error e => .error e
  | .ok st1 =>
    match roEntries with
    | none => .ok st1.files
    | some ro =>
      match readdirFold (read_ro_branch relP) st1 ro with
      | .error e => .error e
      | .ok st2 => .ok st2.files

/-- Names of an RW listing that hepunion_readdir records as visible entries:
neither whiteouts nor metadata files. -/
def rwVisible (rw : List (List Char)) : List (List Char) :=
  rw.filter (fun n => !is_whiteout n && !is_me n)

/-- Bare names recorded from the whiteout entries of an RW listing. -/
def whBareNames (rw : List (List Char)) : List (List Char) :=
  (rw.filter (fun n => is_whiteout n)).map (fun n => n.drop 4)

/-! Copy-up engine (fs/hepunion/cow.c, create_copyup).  The regular-file
branch streams the RO content to the fresh RW file in MAXSIZE reads until a
zero read (EOF); a failing vfs_read or vfs_write closes both files, unlinks
the partial RW copy and returns the error.  vfs_read is modelled as
delivering the next min(MAXSIZE, remaining) bytes of the RO content, its
normal behaviour on a local file; fault injection happens through the
oracle below, whose values model a negative return of the k-th vfs_read or
vfs_write call. -/

/-- Fault oracle of the streaming loop: readFail k (resp. writeFail k) is
the negative value returned by the k-th vfs_read (resp. vfs_write) when
some, none when that call succeeds. -/
structure CopyFaults where
  readFail : Nat → Option Int
  writeFail : Nat → Option Int

/-- Streaming loop of the regular-file branch of create_copyup.  State:
iteration counter k, remaining RO bytes, bytes already written to the RW
file.  Result: (return value, RW file content when it survives, chunks
successfully transferred).  The fuel argument only drives structural
recursion; fuel above the remaining byte count never runs out. -/
def copy_reg_loop (o : CopyFaults) : Nat → Nat → List Nat → List Nat →
    Int × Option (List Nat) × List (List Nat)
  | 0, _, _, _ => (-EINVAL, none, [])
  | fuel + 1, k, rest, written =>
    match o.readFail k with
    | some e => (e, none, [])
    | none =>
      if rest.isEmpty then (0, some written, [])
      else
        let chunk := rest.take MAXSIZE
        match o.writeFail k with
        | some e => (e, none, [])
        | none =>
          let r := copy_reg_loop o fuel (k + 1) (rest.drop MAXSIZE)
            (written ++ chunk)
          (r.1, r.2.1, chunk :: r.2.2)

/-- Regular-file clone step of create_copyup: the loop runs only when the
stat size is positive, otherwise the new RW file stays empty. -/
def copy_regular (o : CopyFaults) (content : List Nat) :
    Int × Option (List Nat) × List (List Nat) :=
  if content.length > 0 then copy_reg_loop o (content.length + 1) 0 content []
  else (0, some [], [])

/-- Size of a pointer on the 64-bit targets the module builds for; the
S_IFLNK branch of create_copyup passes sizeof(tmp) - 1 as the readlink
buffer size although tmp is a char pointer since the kmalloc conversion. -/
def SIZEOF_CHAR_PTR : Nat := 8

/-- readlink as the kernel implements it for a symlink: places
min(bufsiz, strlen(target)) bytes of the target in the buffer and returns
that count, silently truncating a long target. -/
def readlink_model (target : List Char) (bufsiz : Nat) :
    Int × List Char :=
  (Int.ofNat (min bufsiz target.length), target.take bufsiz)

/-- S_IFLNK branch of create_copyup (cow.c): reads the RO link target with
buffer size sizeof(tmp) - 1, NUL-terminates at the returned length and
creates the RW symlink to the resulting string.  The value returned is the
target string of the created RW symlink. -/
def copyup_symlink (target : List Char) : Except Int (List Char) :=
  let bufsiz := SIZEOF_CHAR_PTR - 1
  let r := readlink_model target bufsiz
  if r.1 < 0 then .error r.1
  else .ok (r.2.take r.1.toNat)

/-- Removal of every occurrence of a path from a branch-content list
(vfs_unlink on that path). -/
def removePath (σ : List (List Char)) (q : List Char) : List (List Char) :=
  σ.filter (fun x => decide (x ≠ q))

/-- find_me of me.c: builds the metadata twin path
rw_branch ++ dir(P) ++ ".me." ++ base(P), failing EINVAL without a slash
and ENAMETOOLONG when the RW branch itself overflows the buffer. -/
def find_me_path (ctx : HepunionCtx) (p : List Char) :
    Except Int (List Char) :=
  match splitLastSlash p with
  | none => .error (-EINVAL)
  | some (dir, base) =>
    if ctx.read_write_branch.length > PATH_MAX then .error (-ENAMETOOLONG)
    else .ok (ctx.read_write_branch ++ dir ++ ['.', 'm', 'e', '.'] ++ base)

/-- Outcomes of the fallible steps of create_copyup that the model keeps
abstract: the attribute fetch, the parent materialisation (find_path), the
type-specific clone (every clone branch of the C either leaves no RW entry
or unlinks it on failure, and creates the replica on success; a directory
clone may additionally materialise children, listed in cloneExtra), the
dentry fetch and the attribute application (notify_change, whose failure
unlinks the replica). -/
structure CopyupSteps where
  getattr : Int
  find_path : Int
  clone : Int
  cloneExtra : List (List Char)
  get_dentry : Int
  notify : Int

/-- create_copyup of cow.c at the level of the RW branch content σ (the
list of branch paths that exist).  Steps in source order: attribute fetch,
find_path, type clone, dentry fetch, notify_change (failure unlinks the
replica), then the final metadata retirement: when find_me succeeds and the
metadata twin exists it is unlinked, and 0 is returned. -/
def create_copyup (ctx : HepunionCtx) (env : CopyupSteps) (p : List Char)
    (σ : List (List Char)) : Int × List (List Char) :=
  let rw_path := ctx.read_write_branch ++ p
  if env.getattr < 0 then (env.getattr, σ)
  else if env.find_path < 0 then (env.find_path, σ)
  else if env.clone < 0 then (env.clone, removePath σ rw_path)
  else
    let σ1 := rw_path :: env.cloneExtra ++ σ
    if env.get_dentry < 0 then (env.get_dentry, σ1)
    else if env.notify < 0 then (env.notify, removePath σ1 rw_path)
    else
      match find_me_path ctx p with
      | .error _ => (0, σ1)
      | .ok mp => if mp ∈ σ1 then (0, removePath σ1 mp) else (0, σ1)

/-! Link operation (inode.c, hepunion_link) and whiteout subsystem
(fs/pierrefs-era wh.c as carried in the hepunion tree: is_empty_dir,
unlink_whiteout; helpers.c, unlink). -/

/-- Branch mutations performed by hepunion_link, in execution order. -/
inductive BranchAction where
  | mkSymlink (target linkPath : List Char) : BranchAction
  | mkHardlink (src dst : List Char) : BranchAction
  | rmWhiteout (p : List Char) : BranchAction
deriving DecidableEq, Repr

/-- Content of the real_path buffer when find_file succeeds: READ_ONLY
leaves the RO branch path written by make_ro_path, every other success
leaves the RW branch path (make_rw_path for READ_WRITE, find_path filling
the copy-up destination for READ_WRITE_COPYUP). -/
def find_file_buf (ops : FsOps) (ctx : HepunionCtx) (p : List Char) :
    List Char :=
  if find_file ops ctx p 0 = READ_ONLY then ctx.read_only_branch ++ p
  else ctx.read_write_branch ++ p

/-- Oracles for the steps of hepunion_link outside the resolver: the
can_create permission check on the destination, the parent materialisation
(find_path), and the two workers (negative on failure, 0 on success). -/
structure LinkOps where
  can_create : List Char → Int
  find_path : List Char → Int
  symlink_worker : List Char → List Char → Int
  link_worker : List Char → List Char → Int

/-- hepunion_link of inode.c: resolve the source (origin), require the
destination absent (else EEXIST), check can_create, materialise the
destination parent chain, then create a symlink to the source branch path
when the source is READ_ONLY and a hard link on RW otherwise, and finally
remove a possible whiteout on the destination (return value of
unlink_whiteout ignored).  Result: (return value, branch actions
performed). -/
def hepunion_link (ops : FsOps) (lops : LinkOps) (ctx : HepunionCtx)
    (src dst : List Char) : Int × List BranchAction :=
  let origin := find_file ops ctx src 0
  if origin < 0 then (origin, [])
  else
    let dfound := find_file ops ctx dst 0
    if 0 ≤ dfound then (-EEXIST, [])
    else
      let cc := lops.can_create dst
      if cc < 0 then (cc, [])
      else
        let fp := lops.find_path dst
        if fp < 0 then (fp, [])
        else if origin = READ_ONLY then
          let real_from := find_file_buf ops ctx src
          let e := lops.symlink_worker real_from (ctx.read_write_branch ++ dst)
          if e < 0 then (e, [])
          else (0, [.mkSymlink real_from (ctx.read_write_branch ++ dst),
            .rmWhiteout dst])
        else
          if (ctx.read_write_branch ++ dst).length > PATH_MAX then
            (-ENAMETOOLONG, [])
          else
            let real_from := find_file_buf ops ctx src
            let e := lops.link_worker real_from (ctx.read_write_branch ++ dst)
            if e < 0 then (e, [])
            else (0, [.mkHardlink real_from (ctx.read_write_branch ++ dst),
              .rmWhiteout dst])

/-- check_whiteout callback of wh.c run on one RO entry during
is_empty_dir: special entries pass; any other entry passes exactly when
find_whiteout locates its whiteout (the composed entry path is
dirP ++ name, the snprintf "%s%s" of the C). -/
def check_whiteout (ops : FsOps) (ctx : HepunionCtx) (dirP : List Char)
    (name : List Char) : Int :=
  if is_special name then 0
  else if (dirP ++ name).length > PATH_MAX then -ENAMETOOLONG
  else find_whiteout ops ctx (dirP ++ name)

/-- check_writable callback of wh.c run on one RW entry during
is_empty_dir: whiteouts and specials pass, anything else denies with
ENOTEMPTY. -/
def check_writable (name : List Char) : Int :=
  if is_whiteout name then 0
  else if is_special name then 0
  else -ENOTEMPTY

/-- vfs_readdir with a pure integer callback: iterates the entries and
stops at the first nonzero callback value, which it returns. -/
def readdirCheck (f : List Char → Int) : List (List Char) → Int
  | [] => 0
  | n :: rest =>
    let r := f n
    if r ≠ 0 then r else readdirCheck f rest

/-- is_empty_dir of wh.c: when an RO directory is given, every entry must
pass check_whiteout; when an RW directory is given, every entry must pass
check_writable (the subsequent delete_whiteout sweep has its return value
ignored and does not change the result).  none stands for a NULL path
argument. -/
def is_empty_dir (ops : FsOps) (ctx : HepunionCtx) (dirP : List Char)
    (roEntries rwEntries : Option (List (List Char))) : Int :=
  let roErr :=
    match roEntries with
    | none => 0
    | some ro => readdirCheck (check_whiteout ops ctx dirP) ro
  if roErr < 0 then roErr
  else
    match rwEntries with
    | none => roErr
    | some rw => readdirCheck check_writable rw

/-- unlink of helpers.c at the level of the RW branch content: the dentry
fetch on a missing path fails with kern_path's ENOENT; on an existing path
vfs_unlink removes it. -/
def unlink (σ : List (List Char)) (q : List Char) :
    Int × List (List Char) :=
  if q ∈ σ then (0, removePath σ q) else (-ENOENT, σ)

/-- unlink_whiteout of wh.c: compose the whiteout path of P with
path_to_special, then unlink it unconditionally. -/
def unlink_whiteout (ctx : HepunionCtx) (σ : List (List Char))
    (p : List Char) : Int × List (List Char) :=
  match path_to_special ctx .wh p with
  | .error e => (e, σ)
  | .ok wh_path => unlink σ wh_path

/-- can_remove of helpers.c, with can_access abstracted as an oracle taking
the relative path, the parent branch path and the requested mode: strrchr
finds the last slash of the branch path; when that slash is the first
character the caller is trying to remove the branch root and EACCES is
returned before any permission check; otherwise can_access runs on the
parent directory with MAY_WRITE.  none models the NULL-pointer dereference
the C would commit on a slashless branch path. -/
def can_remove (acc : List Char → List Char → Int → Int)
    (path real_path : List Char) : Option Int :=
  match splitLastSlash real_path with
  | none => none
  | some (dir, _) =>
    if dir = ['/'] then some (-EACCES)
    else some (acc path dir.dropLast MAY_WRITE)

/-- can_create macro of hepunion.h: a wrapper around can_remove, since the
required rights are the same. -/
def can_create (acc : List Char → List Char → Int → Int)
    (path real_path : List Char) : Option Int :=
  can_remove acc path real_path

/-! Concrete mounts, paths and oracle instances used to evaluate the
theorems on closed inputs. -/

/-- Sample mount: RW branch /rw, RO branch /ro. -/
def wCtx : HepunionCtx := ⟨['/', 'r', 'w'], ['/', 'r', 'o']⟩

/-- Sample relative path /a. -/
def wPathA : List Char := ['/', 'a']

/-- Sample relative source path /s. -/
def wPathS : List Char := ['/', 's']

/-- Sample relative destination path /d. -/
def wPathD : List Char := ['/', 'd']

/-- Branch oracle where only the RW copy of /a exists. -/
def wOpsRW : FsOps :=
  ⟨fun q => if q = wCtx.read_write_branch ++ wPathA then 0 else -ENOENT,
   fun _ => 0, fun _ _ => 0⟩

/-- Branch oracle where the RW copy of /a is missing and every other probe
(the RO copy, the whiteout) succeeds. -/
def wOpsWh : FsOps :=
  ⟨fun q => if q = wCtx.read_write_branch ++ wPathA then -ENOENT else 0,
   fun _ => 0, fun _ _ => 0⟩

/-- Branch oracle where only the RO copy of /s exists. -/
def wOpsLinkRO : FsOps :=
  ⟨fun q => if q = wCtx.read_only_branch ++ wPathS then 0 else -ENOENT,
   fun _ => 0, fun _ _ => 0⟩

/-- Branch oracle where only the RW copy of /s exists. -/
def wOpsLinkRW : FsOps :=
  ⟨fun q => if q = wCtx.read_write_branch ++ wPathS then 0 else -ENOENT,
   fun _ => 0, fun _ _ => 0⟩

/-- Branch oracle where every probe succeeds. -/
def wOpsAll : FsOps := ⟨fun _ => 0, fun _ => 0, fun _ _ => 0⟩

/-- Link-step oracle where every step succeeds. -/
def wLinkOps : LinkOps := ⟨fun _ => 0, fun _ => 0, fun _ _ => 0, fun _ _ => 0⟩

/-- Fault oracle of a streaming copy where every read and write succeeds. -/
def wNoFaults : CopyFaults := ⟨fun _ => none, fun _ => none⟩

/-- Copy-up step outcomes where every step succeeds and a plain file is
cloned. -/
def wCopySteps : CopyupSteps := ⟨0, 0, 0, [], 0, 0⟩

/-- Branch path of the whiteout of /a under the sample mount. -/
def wWhA : List Char :=
  ['/', 'r', 'w', '/', '.', 'w', 'h', '.', 'a']

/-- Branch path of the metadata twin of /a under the sample mount. -/
def wMeA : List Char :=
  ['/', 'r', 'w', '/', '.', 'm', 'e', '.', 'a']

/-- Permission oracle granting everything. -/
def wAccAllow : List Char → List Char → Int → Int := fun _ _ _ => 0

/-!
Theorems.  Each claim of the specification review is settled by one theorem
below; helper lemmas precede the theorem that uses them.
-/

/-- C1: for every relative path, the resolver gives RW strict priority over
RO: an existing RW branch path resolves READ_WRITE whatever the RO branch
holds (the statement quantifies over every oracle, so the RO probes and the
whiteout probe cannot influence the outcome); when the RW path is absent, a
whiteout forces -ENOENT even though the RO path exists; and with
IGNORE_WHITEOUT the same state resolves READ_ONLY. -/
theorem find_file_rw_priority (ops : FsOps) (ctx : HepunionCtx)
    (p : List Char) :
    ((ctx.read_write_branch ++ p).length ≤ PATH_MAX →
      ops.check_exist (ctx.read_write_branch ++ p) = 0 →
      ops.can_traverse p = 0 →
      find_file ops ctx p 0 = READ_WRITE)
    ∧ ((ctx.read_write_branch ++ p).length ≤ PATH_MAX →
      ops.check_exist (ctx.read_write_branch ++ p) < 0 →
      (ctx.read_only_branch ++ p).length ≤ PATH_MAX →
      ops.check_exist (ctx.read_only_branch ++ p) = 0 →
      find_whiteout ops ctx p = 0 →
      find_file ops ctx p 0 = -ENOENT)
    ∧ ((ctx.read_write_branch ++ p).length ≤ PATH_MAX →
      ops.check_exist (ctx.read_write_branch ++ p) < 0 →
      (ctx.read_only_branch ++ p).length ≤ PATH_MAX →
      ops.check_exist (ctx.read_only_branch ++ p) = 0 →
      ops.can_traverse p = 0 →
      find_file ops ctx p IGNORE_WHITEOUT = READ_ONLY) := by
  refine ⟨?_, ?_, ?_⟩
  · intro h1 h2 h3
    simp only [List.length_append] at h1
    simp [find_file, is_flag_set, MUST_READ_ONLY, MUST_READ_WRITE,
      Nat.not_lt.mpr h1, h2, h3, READ_WRITE]
  · intro h1 h2 h3 h4 h5
    simp only [List.length_append] at h1 h3
    simp [find_file, find_file_ro, is_flag_set, MUST_READ_ONLY,
      MUST_READ_WRITE, CREATE_COPYUP, IGNORE_WHITEOUT,
      Nat.not_lt.mpr h1, Nat.not_lt.mpr h3, h2, h4, h5]
  · intro h1 h2 h3 h4 h5
    simp only [List.length_append] at h1 h3
    simp [find_file, find_file_ro, is_flag_set, MUST_READ_ONLY,
      MUST_READ_WRITE, CREATE_COPYUP, IGNORE_WHITEOUT,
      Nat.not_lt.mpr h1, Nat.not_lt.mpr h3, h2, h4, h5, READ_ONLY]

/-- Witness for find_file_rw_priority on the sample mount: the RW hit on /a
resolves READ_WRITE; with the RW copy missing a whiteout forces ENOENT; with
IGNORE_WHITEOUT the RO copy is served. -/
theorem find_file_rw_priority_witness :
    find_file wOpsRW wCtx wPathA 0 = READ_WRITE
    ∧ find_file wOpsWh wCtx wPathA 0 = -ENOENT
    ∧ find_file wOpsWh wCtx wPathA IGNORE_WHITEOUT = READ_ONLY := by
  refine ⟨?_, ?_, ?_⟩
  · exact (find_file_rw_priority wOpsRW wCtx wPathA).1
      (by decide) (by decide) (by decide)
  · exact (find_file_rw_priority wOpsWh wCtx wPathA).2.1
      (by decide) (by decide) (by decide) (by decide) (by decide)
  · exact (find_file_rw_priority wOpsWh wCtx wPathA).2.2
      (by decide) (by decide) (by decide) (by decide) (by decide)

end Hepunion

namespace Hepunion

/-- Right shifts do not increase a natural number. -/
lemma shiftr_le (n k : Nat) : n >>> k ≤ n := by
  rw [Nat.shiftRight_eq_div_pow]; exact Nat.div_le_self _ _

/-- Final avalanche of murmur_hash_64a stays below 2^64: its last
multiplication is reduced mod 2^64 and the closing xor mixes values below
2^64. -/
lemma murmur_avalanche_lt (h : Nat) :
    (h ^^^ h >>> MURMUR_R) * MURMUR_M % M64 ^^^
      ((h ^^^ h >>> MURMUR_R) * MURMUR_M % M64) >>> MURMUR_R < 2 ^ 64 := by
  have h4 : (h ^^^ h >>> MURMUR_R) * MURMUR_M % M64 < 2 ^ 64 :=
    Nat.mod_lt _ (by norm_num [M64])
  exact Nat.xor_lt_two_pow h4 (lt_of_le_of_lt (shiftr_le _ _) h4)

/-- Every murmur_hash_64a value fits in 64 bits. -/
lemma murmur_hash_64a_lt (data : List Nat) (len seed : Nat) :
    murmur_hash_64a data len seed < 2 ^ 64 := by
  unfold murmur_hash_64a
  exact murmur_avalanche_lt _

/-- C3: the inode number installed for a relative path P is the
MurmurHash2-64A of the bytes of P, with length strlen(P) and seed
HEPUNION_SEED; it is exactly 64 bits wide and a function of P alone, so
consecutive lookups of the same P report the same number. -/
theorem hepunion_inode_number (p : List Char) :
    hepunion_lookup_ino p =
      murmur_hash_64a (pathBytes p) p.length HEPUNION_SEED
    ∧ hepunion_lookup_ino p < 2 ^ 64
    ∧ ∀ q : List Char, q = p → hepunion_lookup_ino q = hepunion_lookup_ino p :=
  ⟨rfl, murmur_hash_64a_lt _ _ _, fun _ hq => by rw [hq]⟩

end Hepunion

namespace Hepunion

/-- Lists without a slash have no split. -/
lemma splitLastSlash_of_not_mem (l : List Char) (h : '/' ∉ l) :
    splitLastSlash l = none := by
  induction l with
  | nil => rfl
  | cons c rest ih =>
    have hc : ¬(c = '/') := fun e => h (e ▸ List.mem_cons_self c rest)
    have hr : '/' ∉ rest := fun m => h (List.mem_cons_of_mem _ m)
    simp [splitLastSlash, ih hr, hc]

/-- C10: a branch path whose only slash is its first character makes
can_remove return -EACCES at once, before any permission check (the
permission oracle is universally quantified, so it cannot influence the
outcome), and can_create is can_remove. -/
theorem can_remove_root_eacces (acc : List Char → List Char → Int → Int)
    (path : List Char) (rest : List Char) (h : '/' ∉ rest) :
    can_remove acc path ('/' :: rest) = some (-EACCES)
    ∧ can_create acc path ('/' :: rest) = some (-EACCES) := by
  have hs : splitLastSlash ('/' :: rest) = some (['/'], rest) := by
    simp [splitLastSlash, splitLastSlash_of_not_mem rest h]
  constructor <;> simp [can_remove, can_create, hs]

/-- Witness for can_remove_root_eacces: removing or creating over the union
root, whose RW branch path is /rw, is refused with EACCES even under an
all-granting permission oracle. -/
theorem can_remove_root_eacces_witness :
    can_remove wAccAllow wPathA ['/', 'r', 'w'] = some (-EACCES)
    ∧ can_create wAccAllow wPathA ['/', 'r', 'w'] = some (-EACCES) :=
  can_remove_root_eacces wAccAllow wPathA ['r', 'w'] (by decide)

/-- Membership after removePath. -/
lemma mem_removePath {σ : List (List Char)} {x q : List Char} :
    x ∈ removePath σ q ↔ x ∈ σ ∧ x ≠ q := by
  simp [removePath]

/-- C9 counterexample: with no whiteout for /a on the RW branch,
unlink_whiteout returns -ENOENT, not success. -/
theorem unlink_whiteout_missing_counterexample :
    (unlink_whiteout wCtx [] wPathA).1 = -ENOENT
    ∧ (unlink_whiteout wCtx [] wPathA).1 ≠ 0 := by decide

/-- C9 (amended): unlink_whiteout removes the whiteout marker when it
exists and returns 0; when no whiteout exists the unconditional unlink
fails and -ENOENT is returned, the branch untouched (callers ignore the
value). -/
theorem unlink_whiteout_behaviour (ctx : HepunionCtx)
    (σ : List (List Char)) (p wh : List Char)
    (h : path_to_special ctx .wh p = .ok wh) :
    (wh ∈ σ → (unlink_whiteout ctx σ p).1 = 0
      ∧ wh ∉ (unlink_whiteout ctx σ p).2)
    ∧ (wh ∉ σ → unlink_whiteout ctx σ p = (-ENOENT, σ)) := by
  simp only [unlink_whiteout, h, unlink]
  constructor
  · intro hm
    rw [if_pos hm]
    exact ⟨rfl, fun hx => (mem_removePath.mp hx).2 rfl⟩
  · intro hm
    rw [if_neg hm]

/-- Witness for unlink_whiteout_behaviour: on the sample mount, removing
the whiteout of /a succeeds when /rw/.wh.a exists and fails ENOENT when it
does not. -/
theorem unlink_whiteout_behaviour_witness :
    ((unlink_whiteout wCtx [wWhA] wPathA).1 = 0
      ∧ wWhA ∉ (unlink_whiteout wCtx [wWhA] wPathA).2)
    ∧ unlink_whiteout wCtx [] wPathA = (-ENOENT, []) := by
  constructor
  · exact (unlink_whiteout_behaviour wCtx [wWhA] wPathA wWhA rfl).1
      (by decide)
  · exact (unlink_whiteout_behaviour wCtx [] wPathA wWhA rfl).2
      (by decide)

/-- C6: the symlink branch of create_copyup truncates the RO target to
sizeof(char *) - 1 = 7 bytes, because the readlink buffer size still reads
sizeof(tmp) after tmp became a kmalloc pointer; the nine-byte target
/abcdefgh comes out as /abcdef. -/
theorem copyup_symlink_truncates :
    copyup_symlink ['/', 'a', 'b', 'c', 'd', 'e', 'f', 'g', 'h'] =
      .ok ['/', 'a', 'b', 'c', 'd', 'e', 'f']
    ∧ (['/', 'a', 'b', 'c', 'd', 'e', 'f'] : List Char) ≠
      ['/', 'a', 'b', 'c', 'd', 'e', 'f', 'g', 'h'] :=
  ⟨rfl, by decide⟩

end Hepunion

namespace Hepunion

/-- Splitting at the last slash is a decomposition of the path. -/
lemma splitLastSlash_append {p d b : List Char}
    (h : splitLastSlash p = some (d, b)) : p = d ++ b := by
  induction p generalizing d b with
  | nil => simp [splitLastSlash] at h
  | cons c rest ih =>
    unfold splitLastSlash at h
    cases hs : splitLastSlash rest with
    | some db =>
      obtain ⟨d0, b0⟩ := db
      rw [hs] at h
      simp at h
      obtain ⟨hd, hb⟩ := h
      subst hd hb
      simp [ih hs]
    | none =>
      rw [hs] at h
      by_cases hc : c = '/'
      · simp [hc] at h
        obtain ⟨hd, hb⟩ := h
        subst hb
        simp [hc, hd.symm]
      · simp [hc] at h

/-- Length of the metadata twin path: four bytes longer than branch plus
path. -/
lemma find_me_path_length {ctx : HepunionCtx} {p mp : List Char}
    (h : find_me_path ctx p = .ok mp) :
    mp.length = ctx.read_write_branch.length + p.length + 4 := by
  cases hs : splitLastSlash p with
  | none => simp [find_me_path, hs] at h
  | some db =>
    obtain ⟨d, b⟩ := db
    have hp : p = d ++ b := splitLastSlash_append hs
    simp only [find_me_path, hs] at h
    split at h
    · exact absurd h (by simp)
    · simp only [Except.ok.injEq] at h
      subst h
      simp [hp]
      omega

/-- C5: a successful create_copyup leaves the RW replica of P on the RW
branch and no metadata twin of P survives it (the final find_me probe
unlinks it). -/
theorem create_copyup_retires_sidecar (ctx : HepunionCtx)
    (env : CopyupSteps) (p : List Char) (σ : List (List Char))
    (h : (create_copyup ctx env p σ).1 = 0) :
    ctx.read_write_branch ++ p ∈ (create_copyup ctx env p σ).2
    ∧ ∀ mp, find_me_path ctx p = .ok mp →
        mp ∉ (create_copyup ctx env p σ).2 := by
  unfold create_copyup at h ⊢
  by_cases h1 : env.getattr < 0
  · simp [h1] at h ⊢; omega
  by_cases h2 : env.find_path < 0
  · simp [h1, h2] at h ⊢; omega
  by_cases h3 : env.clone < 0
  · simp [h1, h2, h3] at h ⊢; omega
  by_cases h4 : env.get_dentry < 0
  · simp [h1, h2, h3, h4] at h ⊢; omega
  by_cases h5 : env.notify < 0
  · simp [h1, h2, h3, h4, h5] at h ⊢; omega
  simp only [h1, h2, h3, h4, h5, if_false]
  cases hm : find_me_path ctx p with
  | error e =>
    simp [hm]
  | ok mp =>
    have hne : ctx.read_write_branch ++ p ≠ mp := by
      intro he
      have := find_me_path_length hm
      rw [← he] at this
      simp at this
    by_cases hin : mp ∈ (ctx.read_write_branch ++ p) :: env.cloneExtra ++ σ
    · simp only [hm, hin, if_true]
      constructor
      · exact mem_removePath.mpr ⟨List.mem_cons_self _ _, hne⟩
      · intro mp2 hmp2
        simp only [Except.ok.injEq] at hmp2
        subst hmp2
        exact fun hx => (mem_removePath.mp hx).2 rfl
    · simp only [hm, hin, if_false]
      constructor
      · exact List.mem_cons_self _ _
      · intro mp2 hmp2
        simp only [Except.ok.injEq] at hmp2
        subst hmp2
        exact hin

/-- Witness for create_copyup_retires_sidecar: on the sample mount a
successful copy-up of /a, starting from a branch that holds the sidecar
/rw/.me.a, ends with /rw/a present and /rw/.me.a gone. -/
theorem create_copyup_retires_sidecar_witness :
    wCtx.read_write_branch ++ wPathA ∈
      (create_copyup wCtx wCopySteps wPathA [wMeA]).2
    ∧ ∀ mp, find_me_path wCtx wPathA = .ok mp →
        mp ∉ (create_copyup wCtx wCopySteps wPathA [wMeA]).2 :=
  create_copyup_retires_sidecar wCtx wCopySteps wPathA [wMeA] (by decide)

end Hepunion

namespace Hepunion

/-- C7: for link(src, dst) with dst absent from the union, a READ_ONLY
source produces a symbolic link at the RW path of dst whose target is the
RO branch path of src, a READ_WRITE source produces a hard link at the RW
path of dst from the RW path of src, and both cases end by removing a
possible whiteout on dst. -/
theorem hepunion_link_spec (ops : FsOps) (lops : LinkOps)
    (ctx : HepunionCtx) (src dst : List Char)
    (hdst : find_file ops ctx dst 0 < 0)
    (hcc : lops.can_create dst = 0)
    (hfp : lops.find_path dst = 0)
    (hlen : (ctx.read_write_branch ++ dst).length ≤ PATH_MAX)
    (hsw : lops.symlink_worker (ctx.read_only_branch ++ src)
      (ctx.read_write_branch ++ dst) = 0)
    (hlw : lops.link_worker (ctx.read_write_branch ++ src)
      (ctx.read_write_branch ++ dst) = 0) :
    (find_file ops ctx src 0 = READ_ONLY →
      hepunion_link ops lops ctx src dst =
        (0, [.mkSymlink (ctx.read_only_branch ++ src)
              (ctx.read_write_branch ++ dst), .rmWhiteout dst]))
    ∧ (find_file ops ctx src 0 = READ_WRITE →
      hepunion_link ops lops ctx src dst =
        (0, [.mkHardlink (ctx.read_write_branch ++ src)
              (ctx.read_write_branch ++ dst), .rmWhiteout dst])) := by
  simp only [List.length_append] at hlen
  constructor
  · intro horig
    simp [hepunion_link, horig, READ_ONLY, Int.not_lt.mpr (le_of_eq horig.symm),
      Int.not_le.mpr hdst, hcc, hfp, find_file_buf, hsw]
  · intro horig
    have hnneg : ¬ find_file ops ctx src 0 < 0 := by
      rw [horig]; decide
    have hne : find_file ops ctx src 0 ≠ READ_ONLY := by
      rw [horig]; decide
    simp [hepunion_link, hnneg, Int.not_le.mpr hdst, hcc, hfp, hne,
      Nat.not_lt.mpr hlen, find_file_buf, horig, hlw, READ_WRITE, READ_ONLY]

/-- Witness for hepunion_link_spec: on the sample mount, linking /s to the
absent /d creates the symlink /rw/d with target /ro/s when /s only exists
on RO, the hard link /rw/d from /rw/s when /s exists on RW, and removes the
whiteout of /d in both cases. -/
theorem hepunion_link_spec_witness :
    hepunion_link wOpsLinkRO wLinkOps wCtx wPathS wPathD =
      (0, [.mkSymlink (wCtx.read_only_branch ++ wPathS)
            (wCtx.read_write_branch ++ wPathD), .rmWhiteout wPathD])
    ∧ hepunion_link wOpsLinkRW wLinkOps wCtx wPathS wPathD =
      (0, [.mkHardlink (wCtx.read_write_branch ++ wPathS)
            (wCtx.read_write_branch ++ wPathD), .rmWhiteout wPathD]) := by
  constructor
  · exact (hepunion_link_spec wOpsLinkRO wLinkOps wCtx wPathS wPathD
      (by decide) (by decide) (by decide) (by decide) (by decide)
      (by decide)).1 (by decide)
  · exact (hepunion_link_spec wOpsLinkRW wLinkOps wCtx wPathS wPathD
      (by decide) (by decide) (by decide) (by decide) (by decide)
      (by decide)).2 (by decide)

end Hepunion

namespace Hepunion

/-- Errors of path_to_special are negative. -/
lemma path_to_special_error_neg {ctx : HepunionCtx} {ty : SpecialKind}
    {p : List Char} {e : Int} (h : path_to_special ctx ty p = .error e) :
    e < 0 := by
  unfold path_to_special at h
  cases hs : splitLastSlash p with
  | none => rw [hs] at h; simp at h; subst h; decide
  | some db =>
    obtain ⟨d, b⟩ := db
    rw [hs] at h
    dsimp only at h
    by_cases h1 : ctx.read_write_branch.length + p.length + 5 > PATH_MAX
    · rw [if_pos h1] at h; simp at h; subst h; decide
    · rw [if_neg h1] at h
      by_cases h2 : ctx.read_write_branch.length + (d.length - 1) + 5 > PATH_MAX
      · rw [if_pos h2] at h; simp at h; subst h; decide
      · rw [if_neg h2] at h; simp at h

/-- With a non-positive existence oracle, find_whiteout is non-positive. -/
lemma find_whiteout_nonpos {ops : FsOps} {ctx : HepunionCtx}
    (hex : ∀ q, ops.check_exist q ≤ 0) (p : List Char) :
    find_whiteout ops ctx p ≤ 0 := by
  unfold find_whiteout
  cases h : path_to_special ctx .wh p with
  | error e => exact le_of_lt (path_to_special_error_neg h)
  | ok wh => exact hex wh

/-- Value of the check_whiteout callback on a fitting, non-special name. -/
lemma check_whiteout_eq (ops : FsOps) (ctx : HepunionCtx)
    (dirP n : List Char) (hfit : (dirP ++ n).length ≤ PATH_MAX)
    (hns : is_special n = false) :
    check_whiteout ops ctx dirP n = find_whiteout ops ctx (dirP ++ n) := by
  have hfit2 : ¬ (PATH_MAX < dirP.length + n.length) := by
    simp only [List.length_append] at hfit; omega
  simp [check_whiteout, hns, hfit2]

/-- readdirCheck passes exactly when every entry passes. -/
lemma readdirCheck_eq_zero_iff (f : List Char → Int)
    (l : List (List Char)) :
    readdirCheck f l = 0 ↔ ∀ n ∈ l, f n = 0 := by
  induction l with
  | nil => simp [readdirCheck]
  | cons n rest ih =>
    unfold readdirCheck
    by_cases hf : f n = 0
    · simp [hf, ih]
    · simp [hf]

/-- readdirCheck of a non-positive callback is non-positive. -/
lemma readdirCheck_nonpos (f : List Char → Int) (l : List (List Char))
    (h : ∀ n ∈ l, f n ≤ 0) : readdirCheck f l ≤ 0 := by
  induction l with
  | nil => simp [readdirCheck]
  | cons n rest ih =>
    unfold readdirCheck
    by_cases hf : f n = 0
    · simp [hf]
      exact ih fun m hm => h m (List.mem_cons_of_mem _ hm)
    · simpa [hf] using h n (List.mem_cons_self _ _)

/-- C8: is_empty_dir reports the directory empty (returns 0) exactly when
every non-special entry of the RO directory has a matching whiteout
(find_whiteout on the composed entry path succeeds) and the RW directory
holds only whiteout or special entries; any other entry makes it report a
negative error, which hepunion_rmdir turns into -ENOTEMPTY. -/
theorem is_empty_dir_iff (ops : FsOps) (ctx : HepunionCtx)
    (dirP : List Char) (ro rw : List (List Char))
    (hex : ∀ q, ops.check_exist q ≤ 0)
    (hfit : ∀ n ∈ ro, (dirP ++ n).length ≤ PATH_MAX) :
    is_empty_dir ops ctx dirP (some ro) (some rw) = 0 ↔
      ((∀ n ∈ ro, is_special n = false →
          find_whiteout ops ctx (dirP ++ n) = 0)
       ∧ (∀ n ∈ rw, is_whiteout n = true ∨ is_special n = true)) := by
  have hro : readdirCheck (check_whiteout ops ctx dirP) ro = 0 ↔
      (∀ n ∈ ro, is_special n = false →
        find_whiteout ops ctx (dirP ++ n) = 0) := by
    rw [readdirCheck_eq_zero_iff]
    constructor
    · intro hall n hn hns
      have hthis := hall n hn
      rw [check_whiteout_eq ops ctx dirP n (hfit n hn) hns] at hthis
      exact hthis
    · intro hall n hn
      by_cases hs : is_special n = true
      · simp [check_whiteout, hs]
      · rw [check_whiteout_eq ops ctx dirP n (hfit n hn) (by simpa using hs)]
        exact hall n hn (by simpa using hs)
  have hrw : readdirCheck check_writable rw = 0 ↔
      (∀ n ∈ rw, is_whiteout n = true ∨ is_special n = true) := by
    rw [readdirCheck_eq_zero_iff]
    constructor
    · intro hall n hn
      have hthis := hall n hn
      unfold check_writable at hthis
      by_cases hw : is_whiteout n = true
      · exact Or.inl hw
      · by_cases hs : is_special n = true
        · exact Or.inr hs
        · simp [hw, hs, ENOTEMPTY] at hthis
    · intro hall n hn
      unfold check_writable
      rcases hall n hn with hw | hs
      · simp [hw]
      · simp [hs]
  have hronp : readdirCheck (check_whiteout ops ctx dirP) ro ≤ 0 := by
    apply readdirCheck_nonpos
    intro n hn
    by_cases hs : is_special n = true
    · simp [check_whiteout, hs]
    · rw [check_whiteout_eq ops ctx dirP n (hfit n hn) (by simpa using hs)]
      exact find_whiteout_nonpos hex _
  unfold is_empty_dir
  by_cases hneg : readdirCheck (check_whiteout ops ctx dirP) ro < 0
  · simp only [hneg, if_true]
    constructor
    · intro h0; exact absurd h0 (by omega)
    · intro hrhs
      exact absurd (hro.mpr hrhs.1) (by omega)
  · have hzero : readdirCheck (check_whiteout ops ctx dirP) ro = 0 := by omega
    simp only [hneg, if_false]
    rw [hrw]
    constructor
    · intro h; exact ⟨hro.mp hzero, h⟩
    · intro h; exact h.2

/-- Witness for is_empty_dir_iff: a directory whose RO side holds a, with
the whiteout present on RW (the all-granting probe), and whose RW side
holds only .wh.a, is reported empty. -/
theorem is_empty_dir_iff_witness :
    is_empty_dir wOpsAll wCtx ['/'] (some [['a']])
      (some [['.', 'w', 'h', '.', 'a']]) = 0 :=
  (is_empty_dir_iff wOpsAll wCtx ['/'] [['a']] [['.', 'w', 'h', '.', 'a']]
    (fun _ => le_refl 0) (by decide)).mpr (by decide)

end Hepunion

namespace Hepunion

/-- Flattening a nonempty list of nonempty chunks is nonempty. -/
lemma flatten_ne_nil {cs : List (List Nat)} (h : cs ≠ [])
    (hc : ∀ c ∈ cs, c ≠ []) : cs.flatten ≠ [] := by
  rcases List.exists_cons_of_ne_nil h with ⟨c0, cs2, rfl⟩
  have hc0 := hc c0 (List.mem_cons_self _ _)
  rcases List.exists_cons_of_ne_nil hc0 with ⟨x, xs, rfl⟩
  simp

/-- Specification of the streaming loop: a zero return yields the full
content appended to what was already written, with well-formed chunks (the
flattened chunks are the remaining bytes, every chunk nonempty and at most
MAXSIZE, every non-final chunk exactly MAXSIZE); a nonzero return is a
negative injected fault and the RW file is gone. -/
lemma copy_reg_loop_spec (o : CopyFaults)
    (hr : ∀ k e, o.readFail k = some e → e < 0)
    (hw : ∀ k e, o.writeFail k = some e → e < 0) :
    ∀ fuel k rest written, rest.length < fuel →
      (((copy_reg_loop o fuel k rest written).1 = 0 →
        (copy_reg_loop o fuel k rest written).2.1 = some (written ++ rest)
        ∧ (copy_reg_loop o fuel k rest written).2.2.flatten = rest
        ∧ (∀ c ∈ (copy_reg_loop o fuel k rest written).2.2,
            c ≠ [] ∧ c.length ≤ MAXSIZE)
        ∧ (∀ j, j + 1 < (copy_reg_loop o fuel k rest written).2.2.length →
            ((copy_reg_loop o fuel k rest written).2.2.getD j []).length =
              MAXSIZE))
      ∧ ((copy_reg_loop o fuel k rest written).1 ≠ 0 →
        (copy_reg_loop o fuel k rest written).1 < 0
        ∧ (copy_reg_loop o fuel k rest written).2.1 = none)) := by
  intro fuel
  induction fuel with
  | zero => intro k rest written hlt; omega
  | succ fuel ih =>
    intro k rest written hlt
    cases hrf : o.readFail k with
    | some e =>
      have he := hr k e hrf
      have heq : copy_reg_loop o (fuel + 1) k rest written = (e, none, []) := by
        simp [copy_reg_loop, hrf]
      rw [heq]
      exact ⟨fun h0 => absurd h0 (by simp; omega), fun _ => ⟨he, rfl⟩⟩
    | none =>
      by_cases hre : rest.isEmpty
      · have hrnil : rest = [] := List.isEmpty_iff.mp hre
        subst hrnil
        have heq : copy_reg_loop o (fuel + 1) k [] written =
            (0, some written, []) := by
          simp [copy_reg_loop, hrf]
        rw [heq]
        exact ⟨fun _ => ⟨by simp, by simp, by simp, by simp⟩,
          fun h0 => absurd rfl h0⟩
      · cases hwf : o.writeFail k with
        | some e =>
          have he := hw k e hwf
          have heq : copy_reg_loop o (fuel + 1) k rest written =
              (e, none, []) := by
            simp [copy_reg_loop, hrf, hre, hwf]
          rw [heq]
          exact ⟨fun h0 => absurd h0 (by simp; omega), fun _ => ⟨he, rfl⟩⟩
        | none =>
          have hrne : rest ≠ [] := fun hx => hre (by simp [hx])
          have hlen : (rest.drop MAXSIZE).length < fuel := by
            have h1 : 0 < rest.length := List.length_pos.mpr hrne
            have h2 : (rest.drop MAXSIZE).length = rest.length - MAXSIZE :=
              List.length_drop _ _
            have h3 : 0 < MAXSIZE := by norm_num [MAXSIZE]
            omega
          have recur := ih (k + 1) (rest.drop MAXSIZE)
            (written ++ rest.take MAXSIZE) hlen
          have heq : copy_reg_loop o (fuel + 1) k rest written =
              ((copy_reg_loop o fuel (k + 1) (rest.drop MAXSIZE)
                  (written ++ rest.take MAXSIZE)).1,
               (copy_reg_loop o fuel (k + 1) (rest.drop MAXSIZE)
                  (written ++ rest.take MAXSIZE)).2.1,
               rest.take MAXSIZE ::
                 (copy_reg_loop o fuel (k + 1) (rest.drop MAXSIZE)
                   (written ++ rest.take MAXSIZE)).2.2) := by
            simp [copy_reg_loop, hrf, hre, hwf]
          rw [heq]
          constructor
          · intro h0
            obtain ⟨hfile, hflat, hchunks, hlast⟩ := recur.1 h0
            refine ⟨?_, ?_, ?_, ?_⟩
            · rw [hfile]
              simp [List.append_assoc, List.take_append_drop]
            · simp only [List.flatten_cons]
              rw [hflat]
              exact List.take_append_drop _ _
            · intro c hc
              rcases List.mem_cons.mp hc with hc | hc
              · subst hc
                refine ⟨?_, List.length_take_le _ _⟩
                intro hnil
                exact hrne (by simpa [MAXSIZE] using congrArg List.length hnil)
              · exact hchunks c hc
            · intro j hj
              cases j with
              | zero =>
                simp only [List.getD_cons_zero]
                simp only [List.length_cons] at hj
                have hne2 : (copy_reg_loop o fuel (k + 1) (rest.drop MAXSIZE)
                    (written ++ rest.take MAXSIZE)).2.2 ≠ [] := by
                  intro hx
                  rw [hx] at hj
                  simp at hj
                have hdrop_ne : rest.drop MAXSIZE ≠ [] := by
                  rw [← hflat]
                  exact flatten_ne_nil hne2 fun c hc => (hchunks c hc).1
                have hlong : MAXSIZE < rest.length := by
                  have hd := List.length_drop MAXSIZE rest
                  have hpos : 0 < (rest.drop MAXSIZE).length :=
                    List.length_pos.mpr hdrop_ne
                  omega
                rw [List.length_take]
                omega
              | succ j =>
                simp only [List.getD_cons_succ]
                apply hlast
                simp only [List.length_cons] at hj
                omega
          · intro h0
            exact recur.2 h0

/-- C4: during copy-up of a regular file the content is streamed in reads
of MAXSIZE bytes until EOF: on success the RW file holds exactly the RO
content and the transferred chunks tile it, every chunk at most MAXSIZE
bytes and every chunk before the last exactly MAXSIZE; on any read or
write fault the loop returns that negative error and the partial RW copy
has been unlinked (no partial copy-up remains). -/
theorem copyup_regular_stream (o : CopyFaults) (content : List Nat)
    (hr : ∀ k e, o.readFail k = some e → e < 0)
    (hw : ∀ k e, o.writeFail k = some e → e < 0) :
    ((copy_regular o content).1 = 0 →
      (copy_regular o content).2.1 = some content
      ∧ (copy_regular o content).2.2.flatten = content
      ∧ (∀ c ∈ (copy_regular o content).2.2, c ≠ [] ∧ c.length ≤ MAXSIZE)
      ∧ (∀ j, j + 1 < (copy_regular o content).2.2.length →
          ((copy_regular o content).2.2.getD j []).length = MAXSIZE))
    ∧ ((copy_regular o content).1 ≠ 0 →
      (copy_regular o content).1 < 0
      ∧ (copy_regular o content).2.1 = none) := by
  unfold copy_regular
  by_cases hpos : content.length > 0
  · simp only [hpos, if_true]
    have hspec := copy_reg_loop_spec o hr hw (content.length + 1) 0 content []
      (by omega)
    simpa using hspec
  · simp only [hpos, if_false]
    have hnil : content = [] := by
      cases content with
      | nil => rfl
      | cons c cs => simp at hpos
    subst hnil
    exact ⟨fun _ => ⟨rfl, rfl, by simp, by simp⟩, fun h0 => absurd rfl h0⟩

/-- Witness for copyup_regular_stream: a fault-free copy of the three-byte
content transfers one chunk and leaves the full content in the RW file. -/
theorem copyup_regular_stream_witness :
    (copy_regular wNoFaults [1, 2, 3]).1 = 0
    ∧ (copy_regular wNoFaults [1, 2, 3]).2.1 = some [1, 2, 3] := by
  constructor
  · decide
  · exact ((copyup_regular_stream wNoFaults [1, 2, 3]
      (fun k e he => by simp [wNoFaults] at he)
      (fun k e he => by simp [wNoFaults] at he)).1 (by decide)).1

end Hepunion

namespace Hepunion

/-- Metadata names are not whiteout names (prefixes differ at the second
character). -/
lemma me_not_whiteout {n : List Char} (h : is_me n = true) :
    is_whiteout n = false := by
  cases n with
  | nil => rfl
  | cons a t1 =>
    cases t1 with
    | nil => rfl
    | cons b t2 =>
      cases t2 with
      | nil => rfl
      | cons c t3 =>
        cases t3 with
        | nil => rfl
        | cons d t4 =>
          simp [is_me] at h
          obtain ⟨⟨⟨⟨ha, hb⟩, hc⟩, hd⟩, hrest⟩ := h
          simp [is_whiteout, hb]

/-- Closed form of the RW enumeration pass: the recorded whiteout bare
names are those of the whiteout entries (when an RO directory exists) and
the recorded files are the non-whiteout non-metadata entries with their
inode numbers, each prepended in turn. -/
lemma read_rw_branch_fold (relP : List Char) (hasRo : Bool) :
    ∀ (rw : List (List Char)) (st : DirLists),
      (∀ n ∈ rw, relP.length + n.length + 1 ≤ PATH_MAX) →
      readdirFold (read_rw_branch relP hasRo) st rw =
        .ok ⟨(if hasRo then (whBareNames rw).reverse else []) ++ st.whiteouts,
             ((rwVisible rw).map
               (fun n => (n, name_to_ino (relP ++ n)))).reverse ++ st.files⟩ := by
  intro rw
  induction rw with
  | nil =>
    intro st hfit
    simp [readdirFold, whBareNames, rwVisible]
  | cons n rest ih =>
    intro st hfit
    have hfit2 : ∀ m ∈ rest, relP.length + m.length + 1 ≤ PATH_MAX :=
      fun m hm => hfit m (List.mem_cons_of_mem _ hm)
    by_cases hme : is_me n = true
    · have heq : read_rw_branch relP hasRo st n = .ok st := by
        simp [read_rw_branch, hme]
      simp only [readdirFold, heq]
      rw [ih st hfit2]
      have hwh := me_not_whiteout hme
      simp [whBareNames, rwVisible, hme, hwh]
    · by_cases hwh : is_whiteout n = true
      · cases hasRo with
        | false =>
          have heq : read_rw_branch relP false st n = .ok st := by
            simp [read_rw_branch, hme, hwh]
          simp only [readdirFold, heq]
          rw [ih st hfit2]
          simp [whBareNames, rwVisible, hme, hwh]
        | true =>
          have heq : read_rw_branch relP true st n =
              .ok ⟨n.drop 4 :: st.whiteouts, st.files⟩ := by
            simp [read_rw_branch, hme, hwh]
          simp only [readdirFold, heq]
          rw [ih _ hfit2]
          simp [whBareNames, rwVisible, hme, hwh]
      · have hfitn : ¬ (relP.length + n.length + 1 > PATH_MAX) :=
          Nat.not_lt.mpr (hfit n (List.mem_cons_self _ _))
        have heq : read_rw_branch relP hasRo st n =
            .ok ⟨st.whiteouts,
                 (n, name_to_ino (relP ++ n)) :: st.files⟩ := by
          simp only [read_rw_branch, hme, hwh]
          simp [hfitn]
        simp only [readdirFold, heq]
        rw [ih _ hfit2]
        simp [whBareNames, rwVisible, hme, hwh]

end Hepunion

namespace Hepunion

/-- Membership specification of the RO enumeration pass: the whiteout list
is unchanged; a name ends among the recorded files exactly when it already
was there or it is an RO entry with no recorded whiteout bare name; every
newly recorded file carries the inode number of relP ++ name. -/
lemma read_ro_branch_fold (relP : List Char) :
    ∀ (ro : List (List Char)) (st : DirLists),
      (∀ n ∈ ro, relP.length + n.length + 1 ≤ PATH_MAX) →
      ∃ st2, readdirFold (read_ro_branch relP) st ro = .ok st2
        ∧ st2.whiteouts = st.whiteouts
        ∧ (∀ nm, (∃ i, (nm, i) ∈ st2.files) ↔
            ((∃ i, (nm, i) ∈ st.files) ∨ (nm ∈ ro ∧ nm ∉ st.whiteouts)))
        ∧ (∀ nm i, (nm, i) ∈ st2.files →
            (nm, i) ∈ st.files ∨ i = name_to_ino (relP ++ nm)) := by
  intro ro
  induction ro with
  | nil =>
    intro st hfit
    exact ⟨st, rfl, rfl, fun nm => by simp, fun nm i hm => Or.inl hm⟩
  | cons n rest ih =>
    intro st hfit
    have hfit2 : ∀ m ∈ rest, relP.length + m.length + 1 ≤ PATH_MAX :=
      fun m hm => hfit m (List.mem_cons_of_mem _ hm)
    by_cases hwm : st.whiteouts.any (fun w => w = n) = true
    · have hnw : n ∈ st.whiteouts := by
        simpa using hwm
      have heq : read_ro_branch relP st n = .ok st := by
        simp [read_ro_branch, hwm]
      obtain ⟨st2, hfold, hwh, hiff, hino⟩ := ih st hfit2
      refine ⟨st2, ?_, hwh, ?_, hino⟩
      · simp only [readdirFold, heq]; exact hfold
      · intro nm
        rw [hiff nm]
        constructor
        · rintro (h | ⟨hmem, hnwh⟩)
          · exact Or.inl h
          · exact Or.inr ⟨List.mem_cons_of_mem _ hmem, hnwh⟩
        · rintro (h | ⟨hmem, hnwh⟩)
          · exact Or.inl h
          · rcases List.mem_cons.mp hmem with rfl | hmem
            · exact absurd hnw hnwh
            · exact Or.inr ⟨hmem, hnwh⟩
    · by_cases hfm : st.files.any (fun f => f.1 = n) = true
      · have hnf : ∃ i, (n, i) ∈ st.files := by
          rcases List.any_eq_true.mp hfm with ⟨f, hf, hfn⟩
          exact ⟨f.2, by
            have : f.1 = n := by simpa using hfn
            rw [← this]; exact hf⟩
        have heq : read_ro_branch relP st n = .ok st := by
          simp only [read_ro_branch]
          rw [if_neg (by simp [hwm]), if_pos hfm]
        obtain ⟨st2, hfold, hwh, hiff, hino⟩ := ih st hfit2
        refine ⟨st2, ?_, hwh, ?_, hino⟩
        · simp only [readdirFold, heq]; exact hfold
        · intro nm
          rw [hiff nm]
          constructor
          · rintro (h | ⟨hmem, hnwh⟩)
            · exact Or.inl h
            · exact Or.inr ⟨List.mem_cons_of_mem _ hmem, hnwh⟩
          · rintro (h | ⟨hmem, hnwh⟩)
            · exact Or.inl h
            · rcases List.mem_cons.mp hmem with rfl | hmem
              · exact Or.inl hnf
              · exact Or.inr ⟨hmem, hnwh⟩
      · have hfitn : ¬ (relP.length + n.length + 1 > PATH_MAX) :=
          Nat.not_lt.mpr (hfit n (List.mem_cons_self _ _))
        have hnnw : n ∉ st.whiteouts := by
          intro hx
          exact hwm (by simpa using hx)
        have heq : read_ro_branch relP st n =
            .ok ⟨st.whiteouts, (n, name_to_ino (relP ++ n)) :: st.files⟩ := by
          simp only [read_ro_branch]
          rw [if_neg (by simp [hwm]), if_neg (by simp [hfm]),
            if_neg hfitn]
        obtain ⟨st2, hfold, hwh, hiff, hino⟩ :=
          ih ⟨st.whiteouts, (n, name_to_ino (relP ++ n)) :: st.files⟩ hfit2
        refine ⟨st2, ?_, hwh, ?_, ?_⟩
        · simp only [readdirFold, heq]; exact hfold
        · intro nm
          rw [hiff nm]
          constructor
          · rintro (⟨i, hmem⟩ | ⟨hmem, hnwh⟩)
            · rcases List.mem_cons.mp hmem with heqp | hmem
              · have hnmn : nm = n := congrArg Prod.fst heqp
                subst hnmn
                exact Or.inr ⟨List.mem_cons_self _ _, hnnw⟩
              · exact Or.inl ⟨i, hmem⟩
            · exact Or.inr ⟨List.mem_cons_of_mem _ hmem, hnwh⟩
          · rintro (⟨i, hmem⟩ | ⟨hmem, hnwh⟩)
            · exact Or.inl ⟨i, List.mem_cons_of_mem _ hmem⟩
            · rcases List.mem_cons.mp hmem with rfl | hmem
              · exact Or.inl ⟨name_to_ino (relP ++ nm),
                  List.mem_cons_self _ _⟩
              · exact Or.inr ⟨hmem, hnwh⟩
        · intro nm i hmem
          rcases hino nm i hmem with hmem2 | hino2
          · rcases List.mem_cons.mp hmem2 with heqp | hmem3
            · have hnmn : nm = n := congrArg Prod.fst heqp
              have hival : i = name_to_ino (relP ++ n) :=
                congrArg Prod.snd heqp
              rw [hival, hnmn]
              exact Or.inr rfl
            · exact Or.inl hmem3
          · exact Or.inr hino2

end Hepunion

namespace Hepunion

/-- C2 (amended): the set of names served by readdir is exactly the RW
entries that are neither whiteouts nor metadata files, together with the RO
entries that neither match a recorded whiteout bare name nor equal a
recorded RW entry; each served entry carries inode number
name_to_ino(relP ++ name), the concatenation without a separator (equal to
H(P/name) exactly when the directory is the root "/"). -/
theorem hepunion_readdir_visible (relP : List Char)
    (rw ro : List (List Char))
    (hrw : ∀ n ∈ rw, relP.length + n.length + 1 ≤ PATH_MAX)
    (hro : ∀ n ∈ ro, relP.length + n.length + 1 ≤ PATH_MAX) :
    ∃ fs, hepunion_readdir_list relP (some rw) (some ro) = .ok fs
      ∧ (∀ nm, (∃ i, (nm, i) ∈ fs) ↔
          ((nm ∈ rw ∧ is_whiteout nm = false ∧ is_me nm = false)
           ∨ (nm ∈ ro ∧ nm ∉ whBareNames rw
              ∧ ¬(nm ∈ rw ∧ is_whiteout nm = false ∧ is_me nm = false))))
      ∧ (∀ nm i, (nm, i) ∈ fs → i = name_to_ino (relP ++ nm)) := by
  have hrwfold := read_rw_branch_fold relP true rw ⟨[], []⟩ hrw
  have hrwfold2 : readdirFold (read_rw_branch relP true) ⟨[], []⟩ rw =
      .ok ⟨(whBareNames rw).reverse,
           ((rwVisible rw).map
             (fun n => (n, name_to_ino (relP ++ n)))).reverse⟩ := by
    simpa using hrwfold
  obtain ⟨st2, hrofold, hwh, hiff, hino⟩ :=
    read_ro_branch_fold relP ro
      ⟨(whBareNames rw).reverse,
       ((rwVisible rw).map
         (fun n => (n, name_to_ino (relP ++ n)))).reverse⟩ hro
  refine ⟨st2.files, ?_, ?_, ?_⟩
  · simp only [hepunion_readdir_list, Option.isSome_some]
    rw [hrwfold2]
    dsimp only
    rw [hrofold]
  · intro nm
    rw [hiff nm]
    have hmemA : (∃ i, (nm, i) ∈
        ((rwVisible rw).map
          (fun n => (n, name_to_ino (relP ++ n)))).reverse) ↔
        (nm ∈ rw ∧ is_whiteout nm = false ∧ is_me nm = false) := by
      simp only [List.mem_reverse, List.mem_map, rwVisible, List.mem_filter,
        Bool.and_eq_true, Bool.not_eq_true']
      constructor
      · rintro ⟨i, a, ⟨ha, hw1, hm1⟩, heqp⟩
        have h1 : a = nm := congrArg Prod.fst heqp
        subst h1
        exact ⟨ha, hw1, hm1⟩
      · rintro ⟨h1, h2, h3⟩
        exact ⟨name_to_ino (relP ++ nm), nm, ⟨h1, h2, h3⟩, rfl⟩
    have hmemC : (nm ∉ (whBareNames rw).reverse) ↔
        nm ∉ whBareNames rw := by
      simp
    constructor
    · rintro (h | ⟨hmem, hnwh⟩)
      · exact Or.inl (hmemA.mp h)
      · by_cases hA : nm ∈ rw ∧ is_whiteout nm = false ∧ is_me nm = false
        · exact Or.inl hA
        · exact Or.inr ⟨hmem, hmemC.mp hnwh, hA⟩
    · rintro (h | ⟨hmem, hnwh, hA⟩)
      · exact Or.inl (hmemA.mpr h)
      · exact Or.inr ⟨hmem, hmemC.mpr hnwh⟩
  · intro nm i hmem
    rcases hino nm i hmem with hmem2 | hino2
    · simp only [List.mem_reverse, List.mem_map] at hmem2
      obtain ⟨n, hn, heqp⟩ := hmem2
      have h1 : n = nm := congrArg Prod.fst heqp
      have h2 : name_to_ino (relP ++ n) = i := congrArg Prod.snd heqp
      rw [← h2, h1]
    · exact hino2

/-- Witness for hepunion_readdir_visible: in the root directory with RW
entry a and RO entry b, both names are visible with their hashed inode
numbers. -/
theorem hepunion_readdir_visible_witness :
    ∃ fs, hepunion_readdir_list ['/'] (some [['a']]) (some [['b']]) = .ok fs
      ∧ (∀ nm, (∃ i, (nm, i) ∈ fs) ↔
          ((nm ∈ [['a']] ∧ is_whiteout nm = false ∧ is_me nm = false)
           ∨ (nm ∈ [['b']] ∧ nm ∉ whBareNames [['a']]
              ∧ ¬(nm ∈ [['a']] ∧ is_whiteout nm = false ∧ is_me nm = false))))
      ∧ (∀ nm i, (nm, i) ∈ fs → i = name_to_ino (['/'] ++ nm)) :=
  hepunion_readdir_visible ['/'] [['a']] [['b']] (by decide) (by decide)

/-- C2 counterexample: enumerating the directory /d that holds the single
RW entry x serves inode number name_to_ino("/dx") — the relative directory
path and the name are concatenated with no separator — which differs from
H("/d/x"), the number the claim requires. -/
theorem hepunion_readdir_ino_counterexample :
    hepunion_readdir_list ['/', 'd'] (some [['x']]) (some []) =
      .ok [(['x'], name_to_ino ['/', 'd', 'x'])]
    ∧ name_to_ino ['/', 'd', 'x'] ≠ name_to_ino ['/', 'd', '/', 'x'] := by
  constructor
  · rfl
  · decide

end Hepunion
